import Mathlib

/-!
Verification of the PMSP genetic-algorithm solver (`ga_pmsp.py`).

The Python source is shallowly embedded below.  Real numbers are modelled
as rationals (`ℚ`), Python `None` entries of the setup matrix as `Option ℚ`,
and Python exceptions (`ValueError` from `max`/`min` on an empty sequence,
`random.sample` with too few elements, indexing a population that is too
small) as `Option`-valued results, with `none` meaning the call raises.

Randomness: the Python code consumes one value from the global PRNG at each
call site of `random.random`, `random.randrange`, `random.sample` and
`random.shuffle`.  We model the PRNG as an oracle `R : ℕ → Draw` together
with an explicit call counter: the k-th RNG call reads the field of `R k`
relevant to its call site.  Every concrete execution of the Python program
corresponds to one such oracle.  `random.randrange size` is modelled as
`(R k).int % size` (any value in `[0, size)` is reachable), and
`random.sample (range size) 2` is modelled by `ox_pick_cuts`, which turns
the draw into an arbitrary pair of distinct indices below `size` and fails
(`none`) exactly when `size < 2`, as the Python call does.
-/

/-- Setup matrix: `n_jobs × n_jobs` entries, diagonal entries are `None`
(Python `null` in the JSON). -/
abbrev SetupMatrix := List (List (Option ℚ))

/-- Lookup of `setup_matrix[i][j]` followed by the decoder's
`if s is None: s = 0.0` fallback. -/
def setup0 (setup_matrix : SetupMatrix) (i j : ℕ) : ℚ :=
  ((setup_matrix.getD i []).getD j none).getD 0

/-- The machine-availability component of the decoder's candidate time:
`t = machine_time[m]`, plus the setup time when the machine already ran a
job (`if last_job[m] is not None: t = t + s`). -/
def ready_component (machine_time : List ℚ) (last_job : List (Option ℕ))
    (setup_matrix : SetupMatrix) (job m : ℕ) : ℚ :=
  match last_job.getD m none with
  | some lj => machine_time.getD m 0 + setup0 setup_matrix lj job
  | none => machine_time.getD m 0

/-- `start = max(t, ready_times[job])` for machine `m`. -/
def cand_start (machine_time : List ℚ) (last_job : List (Option ℕ))
    (setup_matrix : SetupMatrix) (ready_times : List ℚ) (job m : ℕ) : ℚ :=
  max (ready_component machine_time last_job setup_matrix job m) (ready_times.getD job 0)

/-- `completion = start + processing_times[job]` for machine `m`. -/
def cand_fin (machine_time : List ℚ) (last_job : List (Option ℕ))
    (setup_matrix : SetupMatrix) (ready_times processing_times : List ℚ) (job m : ℕ) : ℚ :=
  cand_start machine_time last_job setup_matrix ready_times job m + processing_times.getD job 0

/-- One step of the decoder's machine scan.  The accumulator is
`(best_machine, best_completion, best_start)`, with `best_completion = none`
standing for the initial `float("inf")`; only a strictly smaller candidate
replaces the current best. -/
def sel_step (machine_time : List ℚ) (last_job : List (Option ℕ))
    (setup_matrix : SetupMatrix) (ready_times processing_times : List ℚ) (job : ℕ)
    (best : Option ℕ × Option ℚ × ℚ) (m : ℕ) : Option ℕ × Option ℚ × ℚ :=
  let completion := cand_fin machine_time last_job setup_matrix ready_times processing_times job m
  let better : Bool :=
    match best.2.1 with
    | none => true
    | some bc => decide (completion < bc)
  if better then
    (some m, some completion, cand_start machine_time last_job setup_matrix ready_times job m)
  else best

/-- The decoder's inner loop `for m in range(n_machines)`, starting from
`best_machine = None`, `best_completion = inf`, `best_start = 0.0`. -/
def select_machine (machine_time : List ℚ) (last_job : List (Option ℕ))
    (setup_matrix : SetupMatrix) (ready_times processing_times : List ℚ)
    (n_machines job : ℕ) : Option ℕ × Option ℚ × ℚ :=
  (List.range n_machines).foldl
    (sel_step machine_time last_job setup_matrix ready_times processing_times job)
    (none, none, 0)

/-- Mutable state of `decode_schedule`'s outer loop. -/
structure DecState where
  machine_time : List ℚ
  last_job : List (Option ℕ)
  completion_times : List ℚ
  schedule : List (List (ℕ × ℚ × ℚ))
deriving DecidableEq

/-- Process one job of the ordering: pick the best machine and commit the
job to it.  `none` models the `TypeError` Python would raise when
`n_machines = 0` (then `best_machine` is still `None` at commit time). -/
def place_job (n_machines : ℕ) (processing_times ready_times : List ℚ)
    (setup_matrix : SetupMatrix) (st : DecState) (job : ℕ) : Option DecState :=
  match select_machine st.machine_time st.last_job setup_matrix ready_times
      processing_times n_machines job with
  | (some bm, some bc, bs) =>
    some { machine_time := st.machine_time.set bm bc,
           last_job := st.last_job.set bm (some job),
           completion_times := st.completion_times.set job bc,
           schedule := st.schedule.set bm ((st.schedule.getD bm []) ++ [(job, bs, bc)]) }
  | _ => none

/-- The decoder's outer loop `for job in order`. -/
def decode_go (n_machines : ℕ) (processing_times ready_times : List ℚ)
    (setup_matrix : SetupMatrix) : List ℕ → DecState → Option DecState
  | [], st => some st
  | job :: rest, st =>
    match place_job n_machines processing_times ready_times setup_matrix st job with
    | none => none
    | some st1 => decode_go n_machines processing_times ready_times setup_matrix rest st1

/-- Python's builtin `max` on a list of numbers: raises (`none`) on `[]`. -/
def list_max : List ℚ → Option ℚ
  | [] => none
  | x :: xs => some (xs.foldl max x)

/-- Initial decoder state: every machine free at time `0` with no last job,
`completion_times = [0.0] * len(order)`, empty per-machine schedules. -/
def decode_init (n_machines : ℕ) (order : List ℕ) : DecState :=
  ⟨List.replicate n_machines 0, List.replicate n_machines none,
   List.replicate order.length 0, List.replicate n_machines []⟩

/-- `decode_schedule(order, n_machines, processing_times, ready_times,
setup_matrix)`.  Returns `none` when Python raises: `max(completion_times)`
on an empty ordering, or committing with `n_machines = 0`. -/
def decode_schedule (order : List ℕ) (n_machines : ℕ)
    (processing_times ready_times : List ℚ) (setup_matrix : SetupMatrix) :
    Option (ℚ × List (List (ℕ × ℚ × ℚ))) :=
  match decode_go n_machines processing_times ready_times setup_matrix order
      (decode_init n_machines order) with
  | none => none
  | some st =>
    match list_max st.completion_times with
    | none => none
    | some mk => some (mk, st.schedule)

/-- `evaluate`: the makespan of a decoded ordering. -/
def evaluate (order : List ℕ) (n_machines : ℕ) (processing_times ready_times : List ℚ)
    (setup_matrix : SetupMatrix) : Option ℚ :=
  (decode_schedule order n_machines processing_times ready_times setup_matrix).map Prod.fst

/-- One PRNG draw; each RNG call site reads the relevant field
(see the module docstring). -/
structure Draw where
  flt : ℚ
  int : ℕ
  pair : ℕ × ℕ
  idxs : List ℕ
  perm : List ℕ
deriving DecidableEq

/-- The `{"chromosome": ..., "cost": ...}` record. -/
structure Individual where
  chromosome : List ℕ
  cost : ℚ
deriving DecidableEq

/-- Python's `min(population, key=lambda ind: ind["cost"])`: the first
individual of minimal cost; raises (`none`) on an empty population. -/
def pop_min : List Individual → Option Individual
  | [] => none
  | x :: xs => some (xs.foldl (fun b i => if i.cost < b.cost then i else b) x)

/-- `tournament_selection(population, k)`: `random.sample(population, k)`
raises when `k > len(population)`; the sampled candidates are the
population members at the oracle-drawn indices. -/
def tournament_selection (population : List Individual) (k : ℕ) (idxs : List ℕ) :
    Option Individual :=
  if k ≤ population.length then
    pop_min ((idxs.take k).map (fun i => population.getD i ⟨[], 0⟩))
  else none

/-- `a, b = sorted(random.sample(range(size), 2))`: fails iff `size < 2`;
otherwise the draw selects an arbitrary pair `a < b < size` (the encoding
below reaches every such pair). -/
def ox_pick_cuts (size : ℕ) (d : Draw) : Option (ℕ × ℕ) :=
  if size < 2 then none
  else
    let x := d.pair.1 % size
    let y0 := d.pair.2 % (size - 1)
    let y := if x ≤ y0 then y0 + 1 else y0
    some (min x y, max x y)

/-- The slice assignment `child[a:b] = parent1[a:b]` applied to a list. -/
def slice_fill (child : List (Option ℕ)) (a b : ℕ) (parent1 : List ℕ) :
    List (Option ℕ) :=
  child.take a ++ ((parent1.drop a).take (b - a)).map some ++ child.drop b

/-- The OX fill loop: `for gene in parent2[b:] + parent2[:b]`, placing each
gene not yet contained in `child` at the next free slot, wrapping `pos`
to `0` past the end. -/
def ox_fill (size : ℕ) : List ℕ → List (Option ℕ) → ℕ → List (Option ℕ)
  | [], child, _ => child
  | gene :: rest, child, pos =>
    if some gene ∈ child then ox_fill size rest child pos
    else if size ≤ pos then ox_fill size rest (child.set 0 (some gene)) 1
    else ox_fill size rest (child.set pos (some gene)) (pos + 1)

/-- `order_crossover(parent1, parent2)` for fixed cut points `a < b`:
initialize `child = [None] * size`, copy `parent1[a:b]`, then run the fill
loop over `parent2[b:] + parent2[:b]` starting at position `b`. -/
def order_crossover (parent1 parent2 : List ℕ) (a b : ℕ) : List (Option ℕ) :=
  ox_fill parent1.length (parent2.drop b ++ parent2.take b)
    (slice_fill (List.replicate parent1.length none) a b parent1) b

/-- A child containing a leftover `None` would make Python raise at its
`evaluate` call (`processing_times[None]`); collapsing it here is
observationally the same failure. -/
def allSome : List (Option ℕ) → Option (List ℕ)
  | [] => some []
  | none :: _ => none
  | some x :: rest => (allSome rest).map (fun l => x :: l)

/-- `order_crossover` including its internal cut-point sampling. -/
def ox_full (parent1 parent2 : List ℕ) (d : Draw) : Option (List ℕ) :=
  match ox_pick_cuts parent1.length d with
  | none => none
  | some (a, b) => allSome (order_crossover parent1 parent2 a b)

/-- The parallel assignment
`chromosome[i], chromosome[j] = chromosome[j], chromosome[i]`. -/
def list_swap (l : List ℕ) (i j : ℕ) : List ℕ :=
  (l.set i (l.getD j 0)).set j (l.getD i 0)

/-- `mutate_swap(chromosome, mutation_rate)`: for each position `i`, with
probability `mutation_rate` swap it with `j = random.randrange(size)`.
Returns the mutated list and the advanced RNG counter. -/
def mutate_swap (chromosome : List ℕ) (mutation_rate : ℚ) (R : ℕ → Draw) (c : ℕ) :
    List ℕ × ℕ :=
  (List.range chromosome.length).foldl
    (fun st i =>
      if (R st.2).flt < mutation_rate then
        (list_swap st.1 i ((R (st.2 + 1)).int % chromosome.length), st.2 + 2)
      else (st.1, st.2 + 1))
    (chromosome, c)

/-- `create_individual`: the shuffle of `list(range(n_jobs))` is the
oracle's `perm` field (a run of the Python program always supplies a
permutation of `range n_jobs` here); the individual's cost comes from
`evaluate`. -/
def create_individual (n_jobs n_machines : ℕ) (processing_times ready_times : List ℚ)
    (setup_matrix : SetupMatrix) (R : ℕ → Draw) (c : ℕ) : Option (Individual × ℕ) :=
  let chromosome := (R c).perm
  match evaluate chromosome n_machines processing_times ready_times setup_matrix with
  | none => none
  | some cost => some (⟨chromosome, cost⟩, c + 1)

/-- The initial-population comprehension of `genetic_algorithm`. -/
def init_population (n_jobs n_machines : ℕ) (processing_times ready_times : List ℚ)
    (setup_matrix : SetupMatrix) (R : ℕ → Draw) :
    ℕ → ℕ → Option (List Individual × ℕ)
  | 0, c => some ([], c)
  | k + 1, c =>
    match create_individual n_jobs n_machines processing_times ready_times setup_matrix R c with
    | none => none
    | some ic =>
      match init_population n_jobs n_machines processing_times ready_times setup_matrix R k ic.2 with
      | none => none
      | some rest0 => some (ic.1 :: rest0.1, rest0.2)

/-- The crossover-or-copy step of the breeding loop: with probability
`crossover_rate` the two children come from `order_crossover` both ways
(counter advances past the two cut draws), else they are copies of the two
parents.  Returns the children and the advanced RNG counter. -/
def make_kids (crossover_rate : ℚ) (R : ℕ → Draw) (c : ℕ) (p1 p2 : List ℕ) :
    Option (List ℕ × List ℕ × ℕ) :=
  if (R (c + 2)).flt < crossover_rate then
    match ox_full p1 p2 (R (c + 3)), ox_full p2 p1 (R (c + 4)) with
    | some k1, some k2 => some (k1, k2, c + 5)
    | _, _ => none
  else some (p1, p2, c + 3)

/-- The breeding loop `while len(new_population) < pop_size`: select two
parents by tournament, cross them over with probability `crossover_rate`
(else copy them), mutate both children, and append the first child plus —
if room remains — the second.  The loop is driven by the structural
argument `gap = pop_size - len(new_population)`, the number of slots still
to fill; every call below keeps that equation, so `gap = 0` is exactly the
loop condition `len(new_population) < pop_size` turning false. -/
def breed_loop (population : List Individual) (tournament_k : ℕ)
    (crossover_rate mutation_rate : ℚ) (n_machines : ℕ)
    (processing_times ready_times : List ℚ) (setup_matrix : SetupMatrix)
    (R : ℕ → Draw) : ℕ → List Individual → ℕ → Option (List Individual × ℕ)
  | 0, new_pop, c => some (new_pop, c)
  | gap + 1, new_pop, c =>
    match tournament_selection population tournament_k (R c).idxs with
    | none => none
    | some par1 =>
      match tournament_selection population tournament_k (R (c + 1)).idxs with
      | none => none
      | some par2 =>
        match make_kids crossover_rate R c par1.chromosome par2.chromosome with
        | none => none
        | some kids =>
          match evaluate (mutate_swap kids.1 mutation_rate R kids.2.2).1 n_machines
              processing_times ready_times setup_matrix with
          | none => none
          | some cost1 =>
            match gap with
            | 0 =>
              some (new_pop ++
                [Individual.mk (mutate_swap kids.1 mutation_rate R kids.2.2).1 cost1],
                (mutate_swap kids.2.1 mutation_rate R
                  (mutate_swap kids.1 mutation_rate R kids.2.2).2).2)
            | gap2 + 1 =>
              match evaluate (mutate_swap kids.2.1 mutation_rate R
                  (mutate_swap kids.1 mutation_rate R kids.2.2).2).1 n_machines
                  processing_times ready_times setup_matrix with
              | none => none
              | some cost2 =>
                breed_loop population tournament_k crossover_rate mutation_rate
                  n_machines processing_times ready_times setup_matrix R
                  gap2
                  ((new_pop ++
                    [Individual.mk (mutate_swap kids.1 mutation_rate R kids.2.2).1 cost1]) ++
                    [Individual.mk (mutate_swap kids.2.1 mutation_rate R
                      (mutate_swap kids.1 mutation_rate R kids.2.2).2).1 cost2])
                  (mutate_swap kids.2.1 mutation_rate R
                    (mutate_swap kids.1 mutation_rate R kids.2.2).2).2

/-- The result record `{"best": ..., "history": ...}`. -/
structure GAResult where
  best : Individual
  history : List ℚ
deriving DecidableEq

/-- The generation loop `for gen in range(generations)`: take the elite of
the current population, update `best` if the elite improves on it, seed the
new population with a copy of the elite, breed the rest, replace the
population, and append the new population's minimum cost to the history. -/
def ga_loop (pop_size tournament_k : ℕ) (crossover_rate mutation_rate : ℚ)
    (n_machines : ℕ) (processing_times ready_times : List ℚ)
    (setup_matrix : SetupMatrix) (R : ℕ → Draw) :
    ℕ → List Individual → Individual → List ℚ → ℕ → Option (Individual × List ℚ)
  | 0, _, best, history, _ => some (best, history)
  | g + 1, population, best, history, c =>
    match pop_min population with
    | none => none
    | some elite =>
      let best1 := if elite.cost < best.cost then elite else best
      match breed_loop population tournament_k crossover_rate mutation_rate
          n_machines processing_times ready_times setup_matrix R
          (pop_size - 1) [⟨elite.chromosome, elite.cost⟩] c with
      | none => none
      | some bres =>
        match pop_min bres.1 with
        | none => none
        | some best_gen =>
          ga_loop pop_size tournament_k crossover_rate mutation_rate n_machines
            processing_times ready_times setup_matrix R
            g bres.1 best1 (history ++ [best_gen.cost]) bres.2

/-- `genetic_algorithm`: initial population, `best = min(population)`,
`best_history = [best["cost"]]`, then the generation loop.  There is no
configuration validation anywhere; failures surface as `none` wherever
Python would raise. -/
def genetic_algorithm (n_jobs n_machines : ℕ)
    (processing_times ready_times : List ℚ) (setup_matrix : SetupMatrix)
    (pop_size generations : ℕ) (crossover_rate mutation_rate : ℚ)
    (tournament_k : ℕ) (R : ℕ → Draw) : Option GAResult :=
  match init_population n_jobs n_machines processing_times ready_times setup_matrix
      R pop_size 0 with
  | none => none
  | some ipop =>
    match pop_min ipop.1 with
    | none => none
    | some best0 =>
      match ga_loop pop_size tournament_k crossover_rate mutation_rate n_machines
          processing_times ready_times setup_matrix R
          generations ipop.1 best0 [best0.cost] ipop.2 with
      | none => none
      | some fin0 => some ⟨fin0.1, fin0.2⟩

/-- Insertion into a descending-sorted list; `insert_desc`/`sort_desc`
model Python's `sorted(deltas, reverse=True)` (the multiset of elements is
all `calcular_ddlb` uses of it). -/
def insert_desc (x : ℚ) : List ℚ → List ℚ
  | [] => [x]
  | y :: ys => if y < x then x :: y :: ys else y :: insert_desc x ys

/-- `sorted(·, reverse=True)`. -/
def sort_desc : List ℚ → List ℚ
  | [] => []
  | x :: xs => insert_desc x (sort_desc xs)

/-- `min(setup_matrix[i][j] for j in range(n_jobs) if j != i and
setup_matrix[i][j] is not None)`: `none` when the generator is empty
(Python `ValueError`). -/
def min_setup_from (n_jobs : ℕ) (setup_matrix : SetupMatrix) (i : ℕ) : Option ℚ :=
  (((List.range n_jobs).filter (fun j => j ≠ i)).filterMap
    (fun j => (setup_matrix.getD i []).getD j none)).min?

/-- The `deltas` accumulation loop of `calcular_ddlb`; a failing `min`
aborts the whole computation. -/
def deltas_go (n_jobs : ℕ) (setup_matrix : SetupMatrix) : List ℕ → Option (List ℚ)
  | [] => some []
  | i :: rest =>
    match min_setup_from n_jobs setup_matrix i with
    | none => none
    | some d =>
      match deltas_go n_jobs setup_matrix rest with
      | none => none
      | some ds => some (d :: ds)

/-- `calcular_ddlb(config, processing_times, setup_matrix, ready_times)`:
the data-dependent lower bound, `max` of the workload bound and the
critical-path bound.  (`n_machines ≥ 1` is assumed by every claim; Python
would raise `ZeroDivisionError` at `n_machines = 0`.) -/
def calcular_ddlb (n_jobs n_machines : ℕ) (processing_times : List ℚ)
    (setup_matrix : SetupMatrix) (ready_times : List ℚ) : Option ℚ :=
  match deltas_go n_jobs setup_matrix (List.range n_jobs) with
  | none => none
  | some deltas =>
    let soma_p := processing_times.sum
    let soma_deltas := deltas.sum
    let deltas_ordenados := sort_desc deltas
    let soma_maiores := (deltas_ordenados.take n_machines).sum
    let setup_total_minimo := soma_deltas - soma_maiores
    let limite_carga_trabalho := (soma_p + setup_total_minimo) / (n_machines : ℚ)
    let limite_caminho_critico := (List.range n_jobs).foldl
      (fun acc i =>
        let caminho_i := ready_times.getD i 0 + processing_times.getD i 0 + deltas.getD i 0
        if acc < caminho_i then caminho_i else acc) 0
    some (max limite_carga_trabalho limite_caminho_critico)

/-- Local validity of one machine's schedule row (claim C7): consecutive
jobs are separated by the setup time, every start respects the job's ready
time, and every end is start plus processing time. -/
def sched_row_ok (processing_times ready_times : List ℚ) (setup_matrix : SetupMatrix)
    (row : List (ℕ × ℚ × ℚ)) : Prop :=
  List.Chain' (fun t1 t2 => t1.2.2 + setup0 setup_matrix t1.1 t2.1 ≤ t2.2.1) row ∧
  ∀ t ∈ row, ready_times.getD t.1 0 ≤ t.2.1 ∧ t.2.2 = t.2.1 + processing_times.getD t.1 0

/-- `machine_time` and `last_job` of machine `m` agree with the end/job of
the last entry of `m`'s schedule row (0/`none` while the row is empty). -/
def machine_sync (st : DecState) (m : ℕ) : Prop :=
  match (st.schedule.getD m []).getLast? with
  | none => st.last_job.getD m none = none ∧ st.machine_time.getD m 0 = 0
  | some t => st.last_job.getD m none = some t.1 ∧ st.machine_time.getD m 0 = t.2.2

/-- Invariant carried through the decoder's outer loop. -/
def dec_inv (n_machines : ℕ) (processing_times ready_times : List ℚ)
    (setup_matrix : SetupMatrix) (st : DecState) : Prop :=
  st.machine_time.length = n_machines ∧ st.last_job.length = n_machines ∧
  st.schedule.length = n_machines ∧
  ∀ m, sched_row_ok processing_times ready_times setup_matrix (st.schedule.getD m []) ∧
    machine_sync st m

/-- Shape of the OX `child` list during the fill loop: `pre` is the filled
prefix of the wrap-around region `[0, a)`, `post` the filled part of
`[b, n)`, and the copied `parent1` slice sits in `[a, b)`. -/
def ox_child (n a b : ℕ) (slice pre post : List ℕ) : List (Option ℕ) :=
  pre.map some ++ List.replicate (a - pre.length) none ++ slice.map some ++
    post.map some ++ List.replicate ((n - b) - post.length) none

/-! ### Basic list lemmas -/

theorem getD_set_eq {α : Type} (l : List α) (i : ℕ) (v d : α) (h : i < l.length) :
    (l.set i v).getD i d = v := by
  simp [List.getD_eq_getElem?_getD, List.getElem?_set_self h]

theorem getD_set_ne {α : Type} (l : List α) {i j : ℕ} (v d : α) (h : i ≠ j) :
    (l.set i v).getD j d = l.getD j d := by
  simp [List.getD_eq_getElem?_getD, List.getElem?_set_ne h]

theorem getD_replicate {α : Type} (n m : ℕ) (x : α) :
    (List.replicate n x).getD m x = x := by
  rcases lt_or_le m n with h | h
  · simp [List.getD_eq_getElem?_getD, List.getElem?_replicate, h]
  · simp [List.getD_eq_getElem?_getD, List.getElem?_replicate, Nat.not_lt.mpr h]

theorem foldl_max_init_le (l : List ℚ) (b : ℚ) : b ≤ l.foldl max b := by
  induction l generalizing b with
  | nil => exact le_refl b
  | cons x xs ih => exact le_trans (le_max_left b x) (ih (max b x))

theorem foldl_max_elem_le (l : List ℚ) (x : ℚ) (hx : x ∈ l) : ∀ b, x ≤ l.foldl max b := by
  induction l with
  | nil => cases hx
  | cons y ys ih =>
    intro b
    rcases List.mem_cons.mp hx with rfl | hmem
    · exact le_trans (le_max_right b x) (foldl_max_init_le ys (max b x))
    · exact ih hmem (max b y)

theorem list_max_ge (l : List ℚ) (mk : ℚ) (h : list_max l = some mk) :
    ∀ x ∈ l, x ≤ mk := by
  match l with
  | [] => cases h
  | y :: ys =>
    intro x hx
    have hmk : mk = ys.foldl max y := by
      simpa [list_max] using h.symm
    subst hmk
    rcases List.mem_cons.mp hx with rfl | hmem
    · exact foldl_max_init_le ys x
    · exact foldl_max_elem_le ys x hmem y

/-! ### The decoder's machine-selection loop (claim C8 machinery) -/

section SelectSpec

variable (machine_time : List ℚ) (last_job : List (Option ℕ))
variable (setup_matrix : SetupMatrix) (ready_times processing_times : List ℚ) (job : ℕ)

theorem sel_foldl_spec (k : ℕ) (hk : 1 ≤ k) :
    ∃ m, m < k ∧
      (List.range k).foldl
          (sel_step machine_time last_job setup_matrix ready_times processing_times job)
          (none, none, 0) =
        (some m,
         some (cand_fin machine_time last_job setup_matrix ready_times processing_times job m),
         cand_start machine_time last_job setup_matrix ready_times job m) ∧
      (∀ m2, m2 < k →
        cand_fin machine_time last_job setup_matrix ready_times processing_times job m ≤
          cand_fin machine_time last_job setup_matrix ready_times processing_times job m2) ∧
      (∀ m2, m2 < m →
        cand_fin machine_time last_job setup_matrix ready_times processing_times job m <
          cand_fin machine_time last_job setup_matrix ready_times processing_times job m2) := by
  induction k with
  | zero => cases hk
  | succ n ih =>
    rcases Nat.eq_zero_or_pos n with rfl | hn
    · refine ⟨0, Nat.zero_lt_one, ?_, ?_, ?_⟩
      · simp [List.range_succ, sel_step]
      · intro m2 hm2
        interval_cases m2
        exact le_refl _
      · intro m2 hm2
        cases hm2
    · obtain ⟨m, hmk, heq, hmin, hstrict⟩ := ih hn
      rw [List.range_succ, List.foldl_append, heq]
      by_cases hlt : cand_fin machine_time last_job setup_matrix ready_times processing_times job n <
          cand_fin machine_time last_job setup_matrix ready_times processing_times job m
      · refine ⟨n, Nat.lt_succ_self n, ?_, ?_, ?_⟩
        · simp [sel_step, hlt]
        · intro m2 hm2
          rcases Nat.lt_succ_iff_lt_or_eq.mp hm2 with h2 | rfl
          · exact le_of_lt (lt_of_lt_of_le hlt (hmin m2 h2))
          · exact le_refl _
        · intro m2 hm2
          exact lt_of_lt_of_le hlt (hmin m2 hm2)
      · refine ⟨m, Nat.lt_succ_of_lt hmk, ?_, ?_, ?_⟩
        · simp [sel_step, hlt]
        · intro m2 hm2
          rcases Nat.lt_succ_iff_lt_or_eq.mp hm2 with h2 | rfl
          · exact hmin m2 h2
          · exact le_of_not_lt hlt
        · exact hstrict
  
theorem select_machine_spec (n_machines : ℕ) (hk : 1 ≤ n_machines) :
    ∃ m, m < n_machines ∧
      select_machine machine_time last_job setup_matrix ready_times processing_times
          n_machines job =
        (some m,
         some (cand_fin machine_time last_job setup_matrix ready_times processing_times job m),
         cand_start machine_time last_job setup_matrix ready_times job m) ∧
      (∀ m2, m2 < n_machines →
        cand_fin machine_time last_job setup_matrix ready_times processing_times job m ≤
          cand_fin machine_time last_job setup_matrix ready_times processing_times job m2) ∧
      (∀ m2, m2 < m →
        cand_fin machine_time last_job setup_matrix ready_times processing_times job m <
          cand_fin machine_time last_job setup_matrix ready_times processing_times job m2) :=
  sel_foldl_spec machine_time last_job setup_matrix ready_times processing_times job
    n_machines hk

end SelectSpec

/-! ### Decoder invariants (claims C1, C3, C7, C8 machinery) -/

theorem getD_mem {α : Type} (l : List α) (j : ℕ) (d : α) (h : j < l.length) :
    l.getD j d ∈ l := by
  have : l.getD j d = l[j] := by
    simp [List.getD_eq_getElem?_getD, List.getElem?_eq_getElem h]
  rw [this]
  exact List.getElem_mem h

/-- Under `n_machines ≥ 1` the commit step always succeeds, committing to
the machine of (leftmost-)minimal candidate finish. -/
theorem place_job_some (n_machines : ℕ) (processing_times ready_times : List ℚ)
    (setup_matrix : SetupMatrix) (st : DecState) (job : ℕ) (hn : 1 ≤ n_machines) :
    ∃ m, m < n_machines ∧
      place_job n_machines processing_times ready_times setup_matrix st job = some
        ⟨st.machine_time.set m
            (cand_fin st.machine_time st.last_job setup_matrix ready_times processing_times job m),
         st.last_job.set m (some job),
         st.completion_times.set job
            (cand_fin st.machine_time st.last_job setup_matrix ready_times processing_times job m),
         st.schedule.set m ((st.schedule.getD m []) ++
           [(job, cand_start st.machine_time st.last_job setup_matrix ready_times job m,
             cand_fin st.machine_time st.last_job setup_matrix ready_times processing_times job m)])⟩ ∧
      (∀ m2, m2 < n_machines →
        cand_fin st.machine_time st.last_job setup_matrix ready_times processing_times job m ≤
          cand_fin st.machine_time st.last_job setup_matrix ready_times processing_times job m2) ∧
      (∀ m2, m2 < m →
        cand_fin st.machine_time st.last_job setup_matrix ready_times processing_times job m <
          cand_fin st.machine_time st.last_job setup_matrix ready_times processing_times job m2) := by
  obtain ⟨m, hm, heq, hmin, hstrict⟩ :=
    select_machine_spec st.machine_time st.last_job setup_matrix ready_times
      processing_times job n_machines hn
  exact ⟨m, hm, by rw [place_job, heq], hmin, hstrict⟩

theorem dec_inv_init (n_machines : ℕ) (processing_times ready_times : List ℚ)
    (setup_matrix : SetupMatrix) (order : List ℕ) :
    dec_inv n_machines processing_times ready_times setup_matrix
      (decode_init n_machines order) := by
  refine ⟨by simp [decode_init], by simp [decode_init], by simp [decode_init], ?_⟩
  intro m
  have hrow : (decode_init n_machines order).schedule.getD m [] = [] :=
    getD_replicate n_machines m []
  constructor
  · rw [hrow]
    exact ⟨List.chain'_nil, by intro t ht; cases ht⟩
  · unfold machine_sync
    rw [hrow]
    exact ⟨getD_replicate n_machines m none, getD_replicate n_machines m 0⟩

theorem place_job_inv (n_machines : ℕ) (processing_times ready_times : List ℚ)
    (setup_matrix : SetupMatrix) (st st1 : DecState) (job : ℕ) (hn : 1 ≤ n_machines)
    (hinv : dec_inv n_machines processing_times ready_times setup_matrix st)
    (hpl : place_job n_machines processing_times ready_times setup_matrix st job = some st1) :
    dec_inv n_machines processing_times ready_times setup_matrix st1 := by
  obtain ⟨hmt, hlj, hsc, hrows⟩ := hinv
  obtain ⟨m, hm, heq, hmin, hstrict⟩ :=
    place_job_some n_machines processing_times ready_times setup_matrix st job hn
  rw [heq] at hpl
  obtain rfl := (Option.some_injective _ hpl)
  refine ⟨by simp [hmt], by simp [hlj], by simp [hsc], ?_⟩
  intro m2
  by_cases hm2 : m2 = m
  · subst hm2
    have hrow2 : (st.schedule.set m2 ((st.schedule.getD m2 []) ++
        [(job, cand_start st.machine_time st.last_job setup_matrix ready_times job m2,
          cand_fin st.machine_time st.last_job setup_matrix ready_times processing_times job m2)])).getD m2 [] =
        (st.schedule.getD m2 []) ++
        [(job, cand_start st.machine_time st.last_job setup_matrix ready_times job m2,
          cand_fin st.machine_time st.last_job setup_matrix ready_times processing_times job m2)] :=
      getD_set_eq _ _ _ _ (hsc ▸ hm)
    obtain ⟨hchain, hmem⟩ := (hrows m2).1
    have hsync := (hrows m2).2
    constructor
    · constructor
      · rw [hrow2]
        rw [List.chain'_append]
        refine ⟨hchain, List.chain'_singleton _, ?_⟩
        intro x hx y hy
        simp only [List.head?_cons, Option.mem_def, Option.some.injEq] at hy
        subst hy
        unfold machine_sync at hsync
        rw [hx] at hsync
        have hstart : st.machine_time.getD m2 0 + setup0 setup_matrix x.1 job ≤
            cand_start st.machine_time st.last_job setup_matrix ready_times job m2 := by
          unfold cand_start ready_component
          rw [hsync.1]
          exact le_max_left _ _
        calc x.2.2 + setup0 setup_matrix x.1 job
            = st.machine_time.getD m2 0 + setup0 setup_matrix x.1 job := by rw [hsync.2]
          _ ≤ cand_start st.machine_time st.last_job setup_matrix ready_times job m2 := hstart
      · rw [hrow2]
        intro t ht
        rcases List.mem_append.mp ht with hold | hnew
        · exact hmem t hold
        · simp only [List.mem_singleton] at hnew
          subst hnew
          refine ⟨le_max_right _ _, rfl⟩
    · unfold machine_sync
      simp only
      rw [hrow2, List.getLast?_concat]
      exact ⟨getD_set_eq _ _ _ _ (hlj ▸ hm), getD_set_eq _ _ _ _ (hmt ▸ hm)⟩
  · have hrow2 : (st.schedule.set m ((st.schedule.getD m []) ++
        [(job, cand_start st.machine_time st.last_job setup_matrix ready_times job m,
          cand_fin st.machine_time st.last_job setup_matrix ready_times processing_times job m)])).getD m2 [] =
        st.schedule.getD m2 [] :=
      getD_set_ne _ _ _ (fun h => hm2 h.symm)
    constructor
    · rw [hrow2]
      exact (hrows m2).1
    · have hsync := (hrows m2).2
      unfold machine_sync at hsync ⊢
      simp only
      rw [hrow2, getD_set_ne _ _ _ (fun h => hm2 h.symm),
        getD_set_ne _ _ _ (fun h => hm2 h.symm)]
      exact hsync

theorem decode_go_inv (n_machines : ℕ) (processing_times ready_times : List ℚ)
    (setup_matrix : SetupMatrix) (order : List ℕ) (hn : 1 ≤ n_machines) :
    ∀ st st1, dec_inv n_machines processing_times ready_times setup_matrix st →
    decode_go n_machines processing_times ready_times setup_matrix order st = some st1 →
    dec_inv n_machines processing_times ready_times setup_matrix st1 := by
  induction order with
  | nil =>
    intro st st1 hinv h
    obtain rfl := Option.some_injective _ h
    exact hinv
  | cons job rest ih =>
    intro st st1 hinv h
    rw [decode_go] at h
    rcases hpl : place_job n_machines processing_times ready_times setup_matrix st job with
      _ | st2
    · rw [hpl] at h; cases h
    · rw [hpl] at h
      exact ih st2 st1
        (place_job_inv n_machines processing_times ready_times setup_matrix st st2 job hn
          hinv hpl) h

theorem decode_go_total (n_machines : ℕ) (processing_times ready_times : List ℚ)
    (setup_matrix : SetupMatrix) (order : List ℕ) (hn : 1 ≤ n_machines) :
    ∀ st, ∃ st1,
      decode_go n_machines processing_times ready_times setup_matrix order st = some st1 := by
  induction order with
  | nil => intro st; exact ⟨st, rfl⟩
  | cons job rest ih =>
    intro st
    obtain ⟨m, hm, heq, -, -⟩ :=
      place_job_some n_machines processing_times ready_times setup_matrix st job hn
    simp only [decode_go, heq]
    exact ih _

/-- Completion-time tracking: every job of `order` that indexes into
`completion_times` ends with a completion at least `ready + processing`,
and entries that already satisfy the bound keep it. -/
theorem decode_go_ct (n_machines : ℕ) (processing_times ready_times : List ℚ)
    (setup_matrix : SetupMatrix) (order : List ℕ) (hn : 1 ≤ n_machines) :
    ∀ st st1,
      decode_go n_machines processing_times ready_times setup_matrix order st = some st1 →
      st1.completion_times.length = st.completion_times.length ∧
      ∀ j, ((j ∈ order ∧ j < st.completion_times.length) ∨
          ready_times.getD j 0 + processing_times.getD j 0 ≤ st.completion_times.getD j 0) →
        ready_times.getD j 0 + processing_times.getD j 0 ≤ st1.completion_times.getD j 0 := by
  induction order with
  | nil =>
    intro st st1 h
    obtain rfl := Option.some_injective _ h
    refine ⟨rfl, ?_⟩
    intro j hj
    rcases hj with ⟨hj1, -⟩ | hj2
    · cases hj1
    · exact hj2
  | cons job rest ih =>
    intro st st1 h
    rw [decode_go] at h
    obtain ⟨m, hm, heq, -, -⟩ :=
      place_job_some n_machines processing_times ready_times setup_matrix st job hn
    rw [heq] at h
    obtain ⟨hlen, hpres⟩ := ih _ st1 h
    have hbc : ready_times.getD job 0 + processing_times.getD job 0 ≤
        cand_fin st.machine_time st.last_job setup_matrix ready_times processing_times job m := by
      unfold cand_fin cand_start
      exact add_le_add_right (le_max_right _ _) _
    have hlen2 : (st.completion_times.set job
        (cand_fin st.machine_time st.last_job setup_matrix ready_times processing_times
          job m)).length = st.completion_times.length := List.length_set _ _ _
    refine ⟨by rw [hlen]; exact hlen2, ?_⟩
    intro j hj
    rcases hj with ⟨hj1, hjlen⟩ | hj2
    · rcases List.mem_cons.mp hj1 with rfl | hrest
      · refine hpres j (Or.inr ?_)
        show ready_times.getD j 0 + processing_times.getD j 0 ≤
          (st.completion_times.set j
            (cand_fin st.machine_time st.last_job setup_matrix ready_times processing_times
              j m)).getD j 0
        rw [getD_set_eq _ _ _ _ hjlen]
        exact hbc
      · refine hpres j (Or.inl ⟨hrest, ?_⟩)
        show j < (st.completion_times.set job _).length
        rw [List.length_set]
        exact hjlen
    · refine hpres j (Or.inr ?_)
      show ready_times.getD j 0 + processing_times.getD j 0 ≤
        (st.completion_times.set job
          (cand_fin st.machine_time st.last_job setup_matrix ready_times processing_times
            job m)).getD j 0
      by_cases hjj : job = j
      · subst hjj
        rcases lt_or_le job st.completion_times.length with hlt | hge
        · rw [getD_set_eq _ _ _ _ hlt]
          exact hbc
        · rw [List.set_eq_of_length_le hge]
          exact hj2
      · rw [getD_set_ne _ _ _ hjj]
        exact hj2

theorem list_max_some (l : List ℚ) (h : l ≠ []) : ∃ mk, list_max l = some mk := by
  match l with
  | [] => exact absurd rfl h
  | x :: xs => exact ⟨xs.foldl max x, rfl⟩

theorem decode_init_ct_length (n_machines : ℕ) (order : List ℕ) :
    (decode_init n_machines order).completion_times.length = order.length := by
  simp [decode_init]

/-- Characterization of a successful `decode_schedule` run. -/
theorem decode_schedule_eq_some (order : List ℕ) (n_machines : ℕ)
    (processing_times ready_times : List ℚ) (setup_matrix : SetupMatrix)
    (mk : ℚ) (sched : List (List (ℕ × ℚ × ℚ)))
    (h : decode_schedule order n_machines processing_times ready_times setup_matrix =
      some (mk, sched)) :
    ∃ st1,
      decode_go n_machines processing_times ready_times setup_matrix order
        (decode_init n_machines order) = some st1 ∧
      list_max st1.completion_times = some mk ∧ st1.schedule = sched := by
  rw [decode_schedule] at h
  split at h
  · cases h
  · next st1 hgo =>
    split at h
    · cases h
    · next mk1 hmax =>
      have hpair := Option.some_injective _ h
      refine ⟨st1, hgo, ?_, congrArg Prod.snd hpair⟩
      rw [hmax]
      exact congrArg (fun x => some x) (congrArg Prod.fst hpair)

/-- Totality of the decoder for a nonempty ordering and at least one
machine. -/
theorem decode_schedule_total (order : List ℕ) (n_machines : ℕ)
    (processing_times ready_times : List ℚ) (setup_matrix : SetupMatrix)
    (hn : 1 ≤ n_machines) (hord : order ≠ []) :
    ∃ mk sched,
      decode_schedule order n_machines processing_times ready_times setup_matrix =
        some (mk, sched) := by
  obtain ⟨st1, hgo⟩ :=
    decode_go_total n_machines processing_times ready_times setup_matrix order hn
      (decode_init n_machines order)
  have hlen : st1.completion_times.length = order.length := by
    rw [(decode_go_ct n_machines processing_times ready_times setup_matrix order hn
      _ st1 hgo).1]
    exact decode_init_ct_length n_machines order
  have hne : st1.completion_times ≠ [] := by
    intro hnil
    rw [hnil] at hlen
    exact hord (List.eq_nil_of_length_eq_zero hlen.symm)
  obtain ⟨mk, hmax⟩ := list_max_some _ hne
  exact ⟨mk, st1.schedule, by simp only [decode_schedule, hgo, hmax]⟩

/-- Every schedule the decoder returns satisfies the per-machine row
validity predicate. -/
theorem decode_schedule_rows (order : List ℕ) (n_machines : ℕ)
    (processing_times ready_times : List ℚ) (setup_matrix : SetupMatrix)
    (mk : ℚ) (sched : List (List (ℕ × ℚ × ℚ))) (hn : 1 ≤ n_machines)
    (h : decode_schedule order n_machines processing_times ready_times setup_matrix =
      some (mk, sched)) :
    ∀ row ∈ sched, sched_row_ok processing_times ready_times setup_matrix row := by
  obtain ⟨st1, hgo, hmax, hsched⟩ :=
    decode_schedule_eq_some order n_machines processing_times ready_times setup_matrix
      mk sched h
  subst hsched
  have hinv := decode_go_inv n_machines processing_times ready_times setup_matrix
    order hn _ st1
    (dec_inv_init n_machines processing_times ready_times setup_matrix order) hgo
  intro row hrow
  obtain ⟨i, hi, hrow2⟩ := List.getElem_of_mem hrow
  have hgetd : st1.schedule.getD i [] = row := by
    rw [List.getD_eq_getElem?_getD, List.getElem?_eq_getElem hi, Option.getD_some, hrow2]
  have hok := (hinv.2.2.2 i).1
  rw [hgetd] at hok
  exact hok

/-- The returned makespan dominates `ready + processing` of every job of
the ordering that indexes into `completion_times`. -/
theorem decode_schedule_makespan_ge (order : List ℕ) (n_machines : ℕ)
    (processing_times ready_times : List ℚ) (setup_matrix : SetupMatrix)
    (mk : ℚ) (sched : List (List (ℕ × ℚ × ℚ))) (hn : 1 ≤ n_machines)
    (h : decode_schedule order n_machines processing_times ready_times setup_matrix =
      some (mk, sched)) :
    ∀ j ∈ order, j < order.length →
      ready_times.getD j 0 + processing_times.getD j 0 ≤ mk := by
  obtain ⟨st1, hgo, hmax, hsched⟩ :=
    decode_schedule_eq_some order n_machines processing_times ready_times setup_matrix
      mk sched h
  intro j hj hjlen
  obtain ⟨hlen, hpres⟩ := decode_go_ct n_machines processing_times ready_times
    setup_matrix order hn _ st1 hgo
  have hjlen2 : j < (decode_init n_machines order).completion_times.length := by
    rw [decode_init_ct_length]; exact hjlen
  have hct := hpres j (Or.inl ⟨hj, hjlen2⟩)
  refine le_trans hct (list_max_ge _ _ hmax _ (getD_mem _ _ _ ?_))
  rw [hlen, decode_init_ct_length]
  exact hjlen

/-! ### Genetic-algorithm loop lemmas (claims C2, C6 machinery) -/

theorem pop_min_foldl_le (xs : List Individual) :
    ∀ b : Individual,
      (xs.foldl (fun b i => if i.cost < b.cost then i else b) b).cost ≤ b.cost := by
  induction xs with
  | nil => intro b; exact le_refl _
  | cons i is ih =>
    intro b
    refine le_trans (ih _) ?_
    by_cases hc : i.cost < b.cost
    · simp only [hc, if_pos]
      exact le_of_lt hc
    · simp only [hc, if_neg, not_false_iff]
      exact le_refl _

theorem pop_min_le_head (x : Individual) (xs : List Individual) (w : Individual)
    (h : pop_min (x :: xs) = some w) : w.cost ≤ x.cost := by
  have hw : w = xs.foldl (fun b i => if i.cost < b.cost then i else b) x := by
    simpa [pop_min] using h.symm
  rw [hw]
  exact pop_min_foldl_le xs x

theorem breed_loop_prefix (population : List Individual) (tournament_k : ℕ)
    (crossover_rate mutation_rate : ℚ) (n_machines : ℕ)
    (processing_times ready_times : List ℚ) (setup_matrix : SetupMatrix)
    (R : ℕ → Draw) :
    ∀ gap new_pop c res,
      breed_loop population tournament_k crossover_rate mutation_rate n_machines
        processing_times ready_times setup_matrix R gap new_pop c = some res →
      ∃ tail, res.1 = new_pop ++ tail := by
  intro gap
  induction gap using Nat.strong_induction_on with
  | _ gap ih =>
    match gap with
    | 0 =>
      intro new_pop c res h
      rw [breed_loop] at h
      obtain rfl := Option.some_injective _ h
      exact ⟨[], by simp⟩
    | g + 1 =>
      intro new_pop c res h
      rw [breed_loop] at h
      split at h
      · cases h
      · split at h
        · cases h
        · split at h
          · cases h
          · split at h
            · cases h
            · split at h
              · obtain rfl := Option.some_injective _ h
                exact ⟨[Individual.mk _ _], rfl⟩
              · next gap2 =>
                split at h
                · cases h
                · obtain ⟨tail, htail⟩ := ih gap2 (by omega) _ _ _ h
                  rw [List.append_assoc, List.append_assoc] at htail
                  exact ⟨_, htail⟩

theorem ga_loop_inv (pop_size tournament_k : ℕ) (crossover_rate mutation_rate : ℚ)
    (n_machines : ℕ) (processing_times ready_times : List ℚ)
    (setup_matrix : SetupMatrix) (R : ℕ → Draw) :
    ∀ g population best history c bestF historyF,
      ga_loop pop_size tournament_k crossover_rate mutation_rate n_machines
        processing_times ready_times setup_matrix R g population best history c =
        some (bestF, historyF) →
      (∃ e, pop_min population = some e ∧ history.getLast? = some e.cost) →
      List.Chain' (fun x y => y ≤ x) history →
      (∀ h2 ∈ history.dropLast, best.cost ≤ h2) →
      List.Chain' (fun x y => y ≤ x) historyF ∧
        ∀ h2 ∈ historyF.dropLast, bestF.cost ≤ h2 := by
  intro g
  induction g with
  | zero =>
    intro population best history c bestF historyF h hlast hchain hbest
    rw [ga_loop] at h
    have hp := Option.some_injective _ h
    obtain ⟨rfl, rfl⟩ : best = bestF ∧ history = historyF :=
      ⟨congrArg Prod.fst hp, congrArg Prod.snd hp⟩
    exact ⟨hchain, hbest⟩
  | succ g ih =>
    intro population best history c bestF historyF h hlast hchain hbest
    rw [ga_loop] at h
    split at h
    · cases h
    · next elite hmin =>
      set best1 := if elite.cost < best.cost then elite else best with hbest1def
      split at h
      · cases h
      · next bres hbreed =>
        split at h
        · cases h
        · next best_gen hbg =>
          obtain ⟨e, he, helast⟩ := hlast
          have heq2 : e = elite := Option.some_injective _ (he.symm.trans hmin)
          rw [heq2] at helast
          have hne : history ≠ [] := by
            intro hnil
            rw [hnil] at helast
            cases helast
          have hsplit := List.dropLast_append_getLast hne
          have hgl : history.getLast hne = elite.cost := by
            have h3 := List.getLast?_eq_getLast history hne
            rw [h3] at helast
            exact Option.some_injective _ helast
          obtain ⟨tail, htail⟩ :=
            breed_loop_prefix population tournament_k crossover_rate mutation_rate
              n_machines processing_times ready_times setup_matrix R
              (pop_size - 1) [⟨elite.chromosome, elite.cost⟩] c bres hbreed
          have hbgle : best_gen.cost ≤ elite.cost := by
            have hcons : bres.1 = ⟨elite.chromosome, elite.cost⟩ :: tail := by
              simpa using htail
            rw [hcons] at hbg
            exact pop_min_le_head _ _ _ hbg
          have hbest1 : best1.cost ≤ elite.cost := by
            rw [hbest1def]
            by_cases hc : elite.cost < best.cost
            · simp only [hc, if_pos]
              exact le_refl _
            · simp only [hc, if_neg, not_false_iff]
              exact le_of_not_lt hc
          have hbest1le : ∀ h2 ∈ history, best1.cost ≤ h2 := by
            intro h2 hh2
            rw [← hsplit] at hh2
            rcases List.mem_append.mp hh2 with hd | hl
            · refine le_trans ?_ (hbest h2 hd)
              rw [hbest1def]
              by_cases hc : elite.cost < best.cost
              · simp only [hc, if_pos]
                exact le_of_lt hc
              · simp only [hc, if_neg, not_false_iff]
                exact le_refl _
            · rw [List.mem_singleton.mp hl, hgl]
              exact hbest1
          refine ih bres.1 best1 (history ++ [best_gen.cost]) bres.2 bestF historyF h
            ⟨best_gen, hbg, List.getLast?_concat _⟩ ?_ ?_
          · rw [List.chain'_append]
            refine ⟨hchain, List.chain'_singleton _, ?_⟩
            intro x hx y hy
            simp only [List.head?_cons, Option.mem_def, Option.some.injEq] at hy
            subst hy
            rw [Option.mem_def, List.getLast?_eq_getLast history hne] at hx
            have hx2 := Option.some_injective _ hx.symm
            rw [hx2, hgl]
            exact hbgle
          · rw [List.dropLast_concat]
            exact hbest1le

/-- At `genetic_algorithm`'s return the history is non-increasing and
`best` undercuts every history entry except possibly the final one. -/
theorem genetic_algorithm_history (n_jobs n_machines : ℕ)
    (processing_times ready_times : List ℚ) (setup_matrix : SetupMatrix)
    (pop_size generations : ℕ) (crossover_rate mutation_rate : ℚ)
    (tournament_k : ℕ) (R : ℕ → Draw) (res : GAResult)
    (h : genetic_algorithm n_jobs n_machines processing_times ready_times setup_matrix
      pop_size generations crossover_rate mutation_rate tournament_k R = some res) :
    List.Chain' (fun x y => y ≤ x) res.history ∧
      ∀ h2 ∈ res.history.dropLast, res.best.cost ≤ h2 := by
  rw [genetic_algorithm] at h
  split at h
  · cases h
  · next ipop hinit =>
    split at h
    · cases h
    · next best0 hmin =>
      split at h
      · cases h
      · next fin0 hloop =>
        obtain rfl := Option.some_injective _ h
        exact ga_loop_inv pop_size tournament_k crossover_rate mutation_rate n_machines
          processing_times ready_times setup_matrix R generations ipop.1 best0
          [best0.cost] ipop.2 fin0.1 fin0.2 hloop
          ⟨best0, hmin, rfl⟩ (List.chain'_singleton _) (by intro h2 hh2; cases hh2)

/-! ### Swap-mutation permutation invariant (claim C5 machinery) -/

theorem set_getD_eq_self (l : List ℕ) : ∀ i : ℕ, l.set i (l.getD i 0) = l := by
  induction l with
  | nil => intro i; rfl
  | cons x xs ih =>
    intro i
    cases i with
    | zero => rfl
    | succ k =>
      show x :: xs.set k (xs.getD k 0) = x :: xs
      rw [ih k]

theorem getD_eq_getElem_of_lt (l : List ℕ) (i : ℕ) (h : i < l.length) :
    l.getD i 0 = l[i] := by
  rw [List.getD_eq_getElem?_getD, List.getElem?_eq_getElem h]
  rfl

theorem list_swap_perm (l : List ℕ) (i j : ℕ) (hi : i < l.length) (hj : j < l.length) :
    (list_swap l i j).Perm l := by
  rcases eq_or_ne i j with rfl | hij
  · unfold list_swap
    rw [List.set_set, set_getD_eq_self]
  · rw [List.perm_iff_count]
    intro x
    have hj2 : j < (l.set i (l.getD j 0)).length := by simpa using hj
    unfold list_swap
    rw [List.count_set _ _ _ _ hj2, List.count_set _ _ _ _ hi]
    rw [List.getElem_set_ne hij hj2]
    simp only [getD_eq_getElem_of_lt l i hi, getD_eq_getElem_of_lt l j hj]
    have hmi : l[i] = x → 1 ≤ l.count x := by
      intro hx
      exact List.count_pos_iff.mpr (hx ▸ List.getElem_mem hi)
    have hmj : l[j] = x → 1 ≤ l.count x := by
      intro hx
      exact List.count_pos_iff.mpr (hx ▸ List.getElem_mem hj)
    simp only [beq_iff_eq]
    by_cases h1 : l[i] = x <;> by_cases h2 : l[j] = x <;>
      simp only [h1, h2, if_pos, if_neg, if_true, if_false] <;> omega

/-- The swap-mutation loop keeps the chromosome a permutation of itself:
each iteration is a transposition (or the identity). -/
theorem mutate_swap_perm (chromosome : List ℕ) (mutation_rate : ℚ) (R : ℕ → Draw)
    (c : ℕ) : (mutate_swap chromosome mutation_rate R c).1.Perm chromosome := by
  rw [mutate_swap]
  have hgen : ∀ idxs : List ℕ, (∀ i ∈ idxs, i < chromosome.length) →
      ∀ st : List ℕ × ℕ, st.1.Perm chromosome →
      (idxs.foldl
        (fun st i =>
          if (R st.2).flt < mutation_rate then
            (list_swap st.1 i ((R (st.2 + 1)).int % chromosome.length), st.2 + 2)
          else (st.1, st.2 + 1)) st).1.Perm chromosome := by
    intro idxs
    induction idxs with
    | nil => intro _ st hst; exact hst
    | cons i is ih =>
      intro hmem st hst
      rw [List.foldl_cons]
      refine ih (fun i2 h2 => hmem i2 (List.mem_cons_of_mem _ h2)) _ ?_
      by_cases hcoin : (R st.2).flt < mutation_rate
      · simp only [hcoin, if_pos]
        have hi : i < st.1.length := by
          rw [hst.length_eq]
          exact hmem i (List.mem_cons_self _ _)
        have hlenpos : 0 < chromosome.length :=
          Nat.zero_lt_of_lt (hmem i (List.mem_cons_self _ _))
        have hj : (R (st.2 + 1)).int % chromosome.length < st.1.length := by
          rw [hst.length_eq]
          exact Nat.mod_lt _ hlenpos
        exact (list_swap_perm st.1 i _ hi hj).trans hst
      · simp only [hcoin, if_neg, not_false_iff]
        exact hst
  exact hgen (List.range chromosome.length)
    (fun i h => List.mem_range.mp h) (chromosome, c) (List.Perm.refl _)

/-! ### Order-crossover permutation invariant (claim C5 machinery) -/

theorem set_append_skip (l1 l2 : List (Option ℕ)) (i : ℕ) (v : Option ℕ)
    (h : l1.length ≤ i) : (l1 ++ l2).set i v = l1 ++ l2.set (i - l1.length) v := by
  rw [List.set_append, if_neg (by omega)]

theorem set_zero_replicate_cons (k : ℕ) (hk : 0 < k) (rest : List (Option ℕ)) (g : ℕ) :
    (List.replicate k (none : Option ℕ) ++ rest).set 0 (some g) =
      some g :: (List.replicate (k - 1) none ++ rest) := by
  cases k with
  | zero => cases hk
  | succ k2 => rw [List.replicate_succ]; rfl

theorem mem_ox_child (n a b : ℕ) (slice pre post : List ℕ) (g : ℕ) :
    some g ∈ ox_child n a b slice pre post ↔ g ∈ pre ∨ g ∈ slice ∨ g ∈ post := by
  simp [ox_child, List.mem_append, List.mem_map, List.mem_replicate]

theorem ox_child_full (n a b : ℕ) (slice pre post : List ℕ)
    (h1 : pre.length = a) (h2 : post.length = n - b) :
    ox_child n a b slice pre post =
      pre.map some ++ slice.map some ++ post.map some := by
  simp [ox_child, h1, h2, List.append_assoc]

theorem set_zero_replicate (k : ℕ) (hk : 0 < k) (g : ℕ) :
    (List.replicate k (none : Option ℕ)).set 0 (some g) =
      some g :: List.replicate (k - 1) none := by
  cases k with
  | zero => cases hk
  | succ k2 => rw [List.replicate_succ]; rfl

theorem ox_child_set_B (n a b : ℕ) (slice post : List ℕ) (g : ℕ)
    (hab : a ≤ b) (hs : slice.length = b - a) (hpost : post.length < n - b) :
    (ox_child n a b slice [] post).set (b + post.length) (some g) =
      ox_child n a b slice [] (post ++ [g]) := by
  simp only [ox_child, List.map_nil, List.nil_append, List.length_nil, Nat.sub_zero]
  rw [set_append_skip _ _ _ _
    (by simp only [List.length_append, List.length_map, List.length_replicate, hs]; omega)]
  have hidx : b + post.length -
      (List.replicate a (none : Option ℕ) ++ slice.map some ++ post.map some).length = 0 := by
    simp only [List.length_append, List.length_map, List.length_replicate, hs]
    omega
  rw [hidx, set_zero_replicate _ (by omega)]
  rw [List.map_append]
  have harith : n - b - post.length - 1 = n - b - (post ++ [g]).length := by
    simp only [List.length_append, List.length_singleton]
    omega
  rw [harith]
  simp [List.append_assoc]

theorem ox_child_set_wrap (n a b : ℕ) (slice post : List ℕ) (g : ℕ) (ha : 0 < a) :
    (ox_child n a b slice [] post).set 0 (some g) =
      ox_child n a b slice [g] post := by
  simp only [ox_child, List.map_nil, List.nil_append, List.length_nil, Nat.sub_zero]
  rw [List.set_append, if_pos (by
    simp only [List.length_append, List.length_map, List.length_replicate]; omega)]
  rw [List.set_append, if_pos (by
    simp only [List.length_append, List.length_map, List.length_replicate]; omega)]
  rw [List.set_append, if_pos (by simp only [List.length_replicate]; omega)]
  rw [set_zero_replicate a ha]
  simp [List.append_assoc]

theorem ox_child_set_A (n a b : ℕ) (slice pre post : List ℕ) (g : ℕ)
    (hpre : pre.length < a) :
    (ox_child n a b slice pre post).set pre.length (some g) =
      ox_child n a b slice (pre ++ [g]) post := by
  simp only [ox_child]
  rw [List.set_append, if_pos (by
    simp only [List.length_append, List.length_map, List.length_replicate]; omega)]
  rw [List.set_append, if_pos (by
    simp only [List.length_append, List.length_map, List.length_replicate]; omega)]
  rw [List.set_append, if_pos (by
    simp only [List.length_append, List.length_map, List.length_replicate]; omega)]
  rw [set_append_skip _ _ _ _ (by simp only [List.length_map]; omega)]
  have hidx : pre.length - (List.map some pre).length = 0 := by
    simp only [List.length_map]
    omega
  rw [hidx, set_zero_replicate _ (by omega)]
  rw [List.map_append]
  have harith : a - pre.length - 1 = a - (pre ++ [g]).length := by
    simp only [List.length_append, List.length_singleton]
    omega
  rw [harith]
  simp [List.append_assoc]

/-- Invariant of the OX fill loop: starting from a child of shape
`ox_child` with the position at the next free slot, the loop fills all
free slots with exactly the placeable genes, in particular never
overwriting the copied slice. -/
theorem ox_fill_spec (n a b : ℕ) (slice : List ℕ) (hab : a < b) (hbn : b < n)
    (hs : slice.length = b - a) :
    ∀ (genes pre post : List ℕ) (pos : ℕ),
      genes.Nodup →
      (∀ g ∈ genes, g ∉ pre ∧ g ∉ post) →
      pre.length ≤ a → post.length ≤ n - b →
      ((pre = [] ∧ pos = b + post.length) ∨ (post.length = n - b ∧ pos = pre.length)) →
      (a - pre.length) + ((n - b) - post.length) =
        (genes.filter (fun g => decide (g ∉ slice))).length →
      ∃ pre2 post2,
        ox_fill n genes (ox_child n a b slice pre post) pos =
          ox_child n a b slice pre2 post2 ∧
        pre2.length = a ∧ post2.length = n - b ∧
        (pre2 ++ post2).Perm (pre ++ post ++ genes.filter (fun g => decide (g ∉ slice))) := by
  intro genes
  induction genes with
  | nil =>
    intro pre post pos hnodup hdisj hprelen hpostlen hposcase hcount
    simp only [List.filter_nil, List.length_nil] at hcount
    refine ⟨pre, post, by rw [ox_fill], by omega, by omega, ?_⟩
    rw [List.filter_nil, List.append_nil]
  | cons g rest ih =>
    intro pre post pos hnodup hdisj hprelen hpostlen hposcase hcount
    have hgnotrest : g ∉ rest := (List.nodup_cons.mp hnodup).1
    have hnodup2 : rest.Nodup := (List.nodup_cons.mp hnodup).2
    have hgd := hdisj g (List.mem_cons_self _ _)
    rw [ox_fill]
    by_cases hg : some g ∈ ox_child n a b slice pre post
    · rw [if_pos hg]
      have hgslice : g ∈ slice := by
        rcases (mem_ox_child n a b slice pre post g).mp hg with h1 | h2 | h3
        · exact absurd h1 hgd.1
        · exact h2
        · exact absurd h3 hgd.2
      have hfilter : (g :: rest).filter (fun g2 => decide (g2 ∉ slice)) =
          rest.filter (fun g2 => decide (g2 ∉ slice)) := by
        rw [List.filter_cons]
        simp [hgslice]
      rw [hfilter] at hcount
      obtain ⟨pre2, post2, hres, h1, h2, hperm⟩ := ih pre post pos hnodup2
        (fun g2 hg2 => hdisj g2 (List.mem_cons_of_mem _ hg2)) hprelen hpostlen
        hposcase hcount
      exact ⟨pre2, post2, hres, h1, h2, by rw [hfilter]; exact hperm⟩
    · rw [if_neg hg]
      have hgslice : g ∉ slice := fun hmem =>
        hg ((mem_ox_child n a b slice pre post g).mpr (Or.inr (Or.inl hmem)))
      have hfilter : (g :: rest).filter (fun g2 => decide (g2 ∉ slice)) =
          g :: rest.filter (fun g2 => decide (g2 ∉ slice)) := by
        rw [List.filter_cons]
        simp [hgslice]
      rw [hfilter] at hcount
      rw [List.length_cons] at hcount
      rcases hposcase with ⟨hprenil, hpos⟩ | ⟨hpostfull, hpos⟩
      · subst hprenil
        subst hpos
        by_cases hpfull : post.length < n - b
        · have hnle : ¬ n ≤ b + post.length := by omega
          rw [if_neg hnle]
          rw [ox_child_set_B n a b slice post g (le_of_lt hab) hs hpfull]
          obtain ⟨pre2, post2, hres, h1, h2, hperm⟩ := ih [] (post ++ [g])
            (b + post.length + 1) hnodup2
            (fun g2 hg2 => ⟨List.not_mem_nil g2, by
              rw [List.mem_append, List.mem_singleton]
              rintro (hmem | rfl)
              · exact (hdisj g2 (List.mem_cons_of_mem _ hg2)).2 hmem
              · exact hgnotrest hg2⟩)
            (Nat.zero_le a)
            (by rw [List.length_append, List.length_singleton]; omega)
            (Or.inl ⟨rfl, by rw [List.length_append, List.length_singleton]; omega⟩)
            (by
              rw [List.length_append, List.length_singleton]
              simp only [List.length_nil, Nat.sub_zero] at hcount ⊢
              omega)
          refine ⟨pre2, post2, hres, h1, h2, hperm.trans ?_⟩
          rw [hfilter]
          simp only [List.nil_append]
          rw [List.append_assoc, List.singleton_append]
        · have hpostfull : post.length = n - b := by omega
          have hnle : n ≤ b + post.length := by omega
          rw [if_pos hnle]
          have ha : 0 < a := by
            simp only [List.length_nil, Nat.sub_zero] at hcount
            omega
          rw [ox_child_set_wrap n a b slice post g ha]
          obtain ⟨pre2, post2, hres, h1, h2, hperm⟩ := ih [g] post 1 hnodup2
            (fun g2 hg2 => ⟨by
              rw [List.mem_singleton]
              rintro rfl
              exact hgnotrest hg2,
              (hdisj g2 (List.mem_cons_of_mem _ hg2)).2⟩)
            (by rw [List.length_singleton]; omega)
            hpostlen
            (Or.inr ⟨hpostfull, by rw [List.length_singleton]⟩)
            (by
              rw [List.length_singleton]
              simp only [List.length_nil, Nat.sub_zero] at hcount
              omega)
          refine ⟨pre2, post2, hres, h1, h2, hperm.trans ?_⟩
          rw [hfilter]
          rw [List.append_assoc, List.singleton_append, List.nil_append]
          exact (List.perm_middle).symm
      · subst hpos
        have hprelt : pre.length < a := by omega
        have hnle : ¬ n ≤ pre.length := by omega
        rw [if_neg hnle]
        rw [ox_child_set_A n a b slice pre post g hprelt]
        obtain ⟨pre2, post2, hres, h1, h2, hperm⟩ := ih (pre ++ [g]) post
          (pre.length + 1) hnodup2
          (fun g2 hg2 => ⟨by
            rw [List.mem_append, List.mem_singleton]
            rintro (hmem | rfl)
            · exact (hdisj g2 (List.mem_cons_of_mem _ hg2)).1 hmem
            · exact hgnotrest hg2,
            (hdisj g2 (List.mem_cons_of_mem _ hg2)).2⟩)
          (by rw [List.length_append, List.length_singleton]; omega)
          hpostlen
          (Or.inr ⟨hpostfull, by rw [List.length_append, List.length_singleton]⟩)
          (by
            rw [List.length_append, List.length_singleton]
            omega)
        refine ⟨pre2, post2, hres, h1, h2, hperm.trans ?_⟩
        rw [hfilter]
        rw [List.append_assoc, List.append_assoc, List.singleton_append,
          List.append_assoc]
        exact List.Perm.append_left pre (List.perm_middle).symm

/-- `order_crossover` of two permutations of `0..n-1` with cuts
`a < b < n` yields a fully-filled child that is again a permutation. -/
theorem order_crossover_perm (n : ℕ) (parent1 parent2 : List ℕ) (a b : ℕ)
    (hp1 : parent1.Perm (List.range n)) (hp2 : parent2.Perm (List.range n))
    (hab : a < b) (hbn : b < n) :
    (order_crossover parent1 parent2 a b).Perm ((List.range n).map some) := by
  have hp1len : parent1.length = n := by rw [hp1.length_eq, List.length_range]
  have hp1nodup : parent1.Nodup := hp1.symm.nodup (List.nodup_range n)
  have hslen : ((parent1.drop a).take (b - a)).length = b - a := by
    rw [List.length_take, List.length_drop, hp1len, Nat.min_eq_left (by omega)]
  have hslicesub : ((parent1.drop a).take (b - a)).Sublist parent1 :=
    (List.take_sublist _ _).trans (List.drop_sublist _ _)
  have hslicenodup : ((parent1.drop a).take (b - a)).Nodup :=
    hslicesub.nodup hp1nodup
  have hslicemem : ∀ x ∈ (parent1.drop a).take (b - a), x ∈ List.range n :=
    fun x hx => hp1.subset (hslicesub.subset hx)
  have hrot : (parent2.drop b ++ parent2.take b).Perm (List.range n) := by
    refine List.Perm.trans List.perm_append_comm ?_
    rw [List.take_append_drop]
    exact hp2
  have hrotnodup : (parent2.drop b ++ parent2.take b).Nodup :=
    hrot.symm.nodup (List.nodup_range n)
  have hchild0 : slice_fill (List.replicate n none) a b parent1 =
      ox_child n a b ((parent1.drop a).take (b - a)) [] [] := by
    rw [slice_fill, ox_child]
    rw [List.take_replicate, List.drop_replicate, Nat.min_eq_left (by omega)]
    simp
  have hpred : (fun x => !(decide (x ∈ (parent1.drop a).take (b - a)))) =
      (fun g => decide (g ∉ (parent1.drop a).take (b - a))) := by
    funext x
    simp [decide_not]
  have hsplit := List.filter_append_perm
    (fun g => decide (g ∈ (parent1.drop a).take (b - a)))
    (parent2.drop b ++ parent2.take b)
  rw [hpred] at hsplit
  have hfin : ((parent2.drop b ++ parent2.take b).filter
      (fun g => decide (g ∈ (parent1.drop a).take (b - a)))).Perm
      ((parent1.drop a).take (b - a)) := by
    rw [List.perm_ext_iff_of_nodup (hrotnodup.filter _) hslicenodup]
    intro x
    rw [List.mem_filter]
    constructor
    · rintro ⟨-, hx2⟩
      exact of_decide_eq_true hx2
    · intro hx
      refine ⟨hrot.symm.subset (hslicemem x hx), decide_eq_true hx⟩
  have hcount : a + (n - b) = ((parent2.drop b ++ parent2.take b).filter
      (fun g => decide (g ∉ (parent1.drop a).take (b - a)))).length := by
    have hlen1 := hsplit.length_eq
    rw [List.length_append] at hlen1
    have hlen2 : (parent2.drop b ++ parent2.take b).length = n := by
      rw [hrot.length_eq, List.length_range]
    have hlen3 := hfin.length_eq
    rw [hslen] at hlen3
    omega
  obtain ⟨pre2, post2, hres, h1, h2, hperm⟩ :=
    ox_fill_spec n a b ((parent1.drop a).take (b - a)) hab hbn hslen
      (parent2.drop b ++ parent2.take b) [] [] b hrotnodup
      (fun g _ => ⟨List.not_mem_nil g, List.not_mem_nil g⟩)
      (Nat.zero_le a) (Nat.zero_le _)
      (Or.inl ⟨rfl, by simp⟩)
      (by simp only [List.length_nil, Nat.sub_zero]; exact hcount)
  have hperm2 : (pre2 ++ post2).Perm ((parent2.drop b ++ parent2.take b).filter
      (fun g => decide (g ∉ (parent1.drop a).take (b - a)))) := by
    simpa using hperm
  rw [order_crossover, hp1len, hchild0, hres,
    ox_child_full n a b _ pre2 post2 h1 h2]
  rw [← List.map_append, ← List.map_append]
  refine List.Perm.map some ?_
  have s1 : ((pre2 ++ (parent1.drop a).take (b - a)) ++ post2).Perm
      ((parent1.drop a).take (b - a) ++ (pre2 ++ post2)) := by
    rw [← List.append_assoc]
    exact List.Perm.append_right post2 List.perm_append_comm
  exact s1.trans ((List.Perm.append_left _ hperm2).trans
    ((List.Perm.append_right _ hfin.symm).trans (hsplit.trans hrot)))

theorem allSome_map_some (l2 : List ℕ) : allSome (l2.map some) = some l2 := by
  induction l2 with
  | nil => rfl
  | cons x xs ih => simp [allSome, ih]

theorem all_some_exists (l : List (Option ℕ)) :
    (∀ x ∈ l, ∃ v, x = some v) → ∃ l2 : List ℕ, l = l2.map some := by
  induction l with
  | nil => exact fun _ => ⟨[], rfl⟩
  | cons x xs ih =>
    intro hnone
    obtain ⟨v, rfl⟩ := hnone x (List.mem_cons_self _ _)
    obtain ⟨l3, rfl⟩ := ih (fun y hy => hnone y (List.mem_cons_of_mem _ hy))
    exact ⟨v :: l3, rfl⟩

theorem allSome_eq_some_of_perm (l : List (Option ℕ)) (n : ℕ)
    (h : l.Perm ((List.range n).map some)) :
    ∃ l2, allSome l = some l2 ∧ l2.Perm (List.range n) := by
  have hnone : ∀ x ∈ l, ∃ v, x = some v := by
    intro x hx
    have hx2 := h.subset hx
    rw [List.mem_map] at hx2
    obtain ⟨v, -, rfl⟩ := hx2
    exact ⟨v, rfl⟩
  obtain ⟨l2, rfl⟩ := all_some_exists l hnone
  refine ⟨l2, allSome_map_some l2, ?_⟩
  rw [List.perm_iff_count]
  intro x
  have h1 := List.count_map_of_injective l2 some (Option.some_injective ℕ) x
  have h2 := List.count_map_of_injective (List.range n) some (Option.some_injective ℕ) x
  rw [← h1, ← h2]
  exact List.perm_iff_count.mp h (some x)

theorem ox_pick_cuts_valid (size : ℕ) (d : Draw) (hsz : 2 ≤ size) :
    ∃ a b, ox_pick_cuts size d = some (a, b) ∧ a < b ∧ b < size := by
  rw [ox_pick_cuts, if_neg (by omega)]
  have hx : d.pair.1 % size < size := Nat.mod_lt _ (by omega)
  have hy0 : d.pair.2 % (size - 1) < size - 1 := Nat.mod_lt _ (by omega)
  by_cases hc : d.pair.1 % size ≤ d.pair.2 % (size - 1)
  · refine ⟨_, _, rfl, ?_, ?_⟩
    · simp only [hc, if_pos]
      omega
    · simp only [hc, if_pos]
      omega
  · refine ⟨_, _, rfl, ?_, ?_⟩
    · simp only [hc, if_neg, not_false_iff]
      omega
    · simp only [hc, if_neg, not_false_iff]
      omega

/-- `ox_full` on two parent permutations of length at least 2 always
returns a child that is again a permutation. -/
theorem ox_full_perm (n : ℕ) (parent1 parent2 : List ℕ) (d : Draw)
    (hp1 : parent1.Perm (List.range n)) (hp2 : parent2.Perm (List.range n))
    (hn : 2 ≤ n) :
    ∃ child, ox_full parent1 parent2 d = some child ∧ child.Perm (List.range n) := by
  have hp1len : parent1.length = n := by rw [hp1.length_eq, List.length_range]
  obtain ⟨a, b, hcuts, hab, hbn⟩ := ox_pick_cuts_valid parent1.length d (by omega)
  obtain ⟨child, hsome, hperm⟩ := allSome_eq_some_of_perm
    (order_crossover parent1 parent2 a b) n
    (order_crossover_perm n parent1 parent2 a b hp1 hp2 hab (hp1len ▸ hbn))
  refine ⟨child, ?_, hperm⟩
  rw [ox_full, hcuts]
  exact hsome

/-! ### Lower-bound degenerate cases (claim C4 machinery) -/

theorem calcular_ddlb_zero_jobs (n_machines : ℕ) (setup_matrix : SetupMatrix)
    (ready_times : List ℚ) (hm : 1 ≤ n_machines) :
    calcular_ddlb 0 n_machines [] setup_matrix ready_times = some 0 := by
  rw [calcular_ddlb]
  simp [deltas_go, sort_desc, List.range_zero]

theorem calcular_ddlb_one_job (n_machines : ℕ) (processing_times : List ℚ)
    (setup_matrix : SetupMatrix) (ready_times : List ℚ) :
    calcular_ddlb 1 n_machines processing_times setup_matrix ready_times = none := rfl

/-! ### Claim theorems -/

/-- C1, counterexample: on the 2-job/2-machine instance with processing
times 1, zero ready times and symmetric setup 100, the decoder achieves
makespan 1 (each job alone on its machine, no setup paid), strictly below
`calcular_ddlb = 101`: the critical-path component wrongly charges the
minimal outgoing setup to jobs that run last on their machine, so the
claimed lower-bound soundness fails. -/
theorem c1_counterexample :
    (decode_schedule [0, 1] 2 [1, 1] [0, 0]
      [[none, some 100], [some 100, none]]).map Prod.fst = some 1 ∧
    calcular_ddlb 2 2 [1, 1] [[none, some 100], [some 100, none]] [0, 0] = some 101 ∧
    (1 : ℚ) < 101 := by
  refine ⟨?_, ?_, ?_⟩ <;> with_unfolding_all decide

/-- C1, amended: on a well-formed instance the decoded makespan of any
permutation is at least `max over i of (ready_time[i] + processing_time[i])`
— the critical-path bound without the `delta[i]` term.  (With the `delta`
term, and hence with `calcular_ddlb` as a whole, the bound is refuted by
`c1_counterexample`.) -/
theorem c1_amended (n_jobs n_machines : ℕ)
    (processing_times ready_times : List ℚ) (setup_matrix : SetupMatrix)
    (order : List ℕ)
    (hn : 1 ≤ n_jobs) (hm : 1 ≤ n_machines)
    (hp : processing_times.length = n_jobs) (hr : ready_times.length = n_jobs)
    (hpnn : ∀ x ∈ processing_times, 0 ≤ x) (hrnn : ∀ x ∈ ready_times, 0 ≤ x)
    (hsnn : ∀ row ∈ setup_matrix, ∀ cell ∈ row, 0 ≤ cell.getD 0)
    (hperm : order.Perm (List.range n_jobs)) :
    ∃ mk sched,
      decode_schedule order n_machines processing_times ready_times setup_matrix =
        some (mk, sched) ∧
      ∀ j < n_jobs, ready_times.getD j 0 + processing_times.getD j 0 ≤ mk := by
  have hlen : order.length = n_jobs := by rw [hperm.length_eq, List.length_range]
  have hne : order ≠ [] := by
    intro h0
    rw [h0, List.length_nil] at hlen
    omega
  obtain ⟨mk, sched, hdec⟩ := decode_schedule_total order n_machines processing_times
    ready_times setup_matrix hm hne
  refine ⟨mk, sched, hdec, ?_⟩
  intro j hj
  have hmem : j ∈ order := hperm.mem_iff.mpr (List.mem_range.mpr hj)
  exact decode_schedule_makespan_ge order n_machines processing_times ready_times
    setup_matrix mk sched hm hdec j hmem (by omega)

theorem c1_amended_witness :
    ∃ mk sched,
      decode_schedule [0, 1] 1 [1, 1] [0, 0] [[none, some 10], [some 0, none]] =
        some (mk, sched) ∧
      ∀ j < 2, ([0, 0] : List ℚ).getD j 0 + ([1, 1] : List ℚ).getD j 0 ≤ mk :=
  c1_amended 2 1 [1, 1] [0, 0] [[none, some 10], [some 0, none]] [0, 1]
    (by decide) (by decide) (by decide) (by decide) (by decide) (by decide)
    (by decide) (by decide)

/-- C2, counterexample: with population 2, a single generation, crossover
off and mutation certain, the last generation discovers the better ordering
`[1,0]` (cost 2) and records it in History, but `best` is never updated
from the final generation, so the returned `best.cost = 12` exceeds the
History entry `2` — refuting `best.cost ≤ min(History)`. -/
theorem c2_counterexample :
    genetic_algorithm 2 1 [1, 1] [0, 0] [[none, some 10], [some 0, none]] 2 1 0 1 1
      (fun _ => ⟨1/2, 1, (0, 0), [0], [0, 1]⟩) =
      some ⟨⟨[0, 1], 12⟩, [12, 2]⟩ ∧ ¬ ((12 : ℚ) ≤ 2) :=
  ⟨by with_unfolding_all decide, by decide⟩

/-- C2, amended: `best` is only updated from a generation's elite at the
start of the NEXT generation, which never happens for the final one; hence
on return `best.cost` undercuts every History entry except possibly the
last (and `c2_counterexample` shows the last can be strictly smaller). -/
theorem c2_amended (n_jobs n_machines : ℕ)
    (processing_times ready_times : List ℚ) (setup_matrix : SetupMatrix)
    (pop_size generations : ℕ) (crossover_rate mutation_rate : ℚ)
    (tournament_k : ℕ) (R : ℕ → Draw) (res : GAResult)
    (h : genetic_algorithm n_jobs n_machines processing_times ready_times setup_matrix
      pop_size generations crossover_rate mutation_rate tournament_k R = some res) :
    ∀ h2 ∈ res.history.dropLast, res.best.cost ≤ h2 :=
  (genetic_algorithm_history n_jobs n_machines processing_times ready_times setup_matrix
    pop_size generations crossover_rate mutation_rate tournament_k R res h).2

theorem c2_amended_witness :
    genetic_algorithm 2 1 [1, 1] [0, 0] [[none, some 10], [some 0, none]] 2 3 0 1 1
      (fun _ => ⟨1/2, 1, (0, 0), [0], [0, 1]⟩) =
      some ⟨⟨[1, 0], 2⟩, [12, 2, 2, 2]⟩ ∧
    (GAResult.mk ⟨[1, 0], 2⟩ [12, 2, 2, 2]).best.cost ≤ 12 :=
  ⟨by with_unfolding_all decide,
   c2_amended 2 1 [1, 1] [0, 0] [[none, some 10], [some 0, none]] 2 3 0 1 1
     (fun _ => ⟨1/2, 1, (0, 0), [0], [0, 1]⟩) ⟨⟨[1, 0], 2⟩, [12, 2, 2, 2]⟩
     (by with_unfolding_all decide) 12 (by decide)⟩

/-- C3, counterexample: on the empty ordering (`n_jobs = 0`) the decoder
does NOT return an empty schedule with makespan 0 — Python's
`max(completion_times)` raises `ValueError` on the empty list, modelled
here as `none`. -/
theorem c3_counterexample : decode_schedule [] 1 [] [] [] = none := rfl

/-- C3, amended: `decode_schedule` raises on `n_jobs = 0` (empty ordering);
for every nonempty ordering and `n_machines ≥ 1` it is total and returns a
makespan and schedule. -/
theorem c3_amended :
    (∀ (n_machines : ℕ) (processing_times ready_times : List ℚ)
      (setup_matrix : SetupMatrix),
      decode_schedule [] n_machines processing_times ready_times setup_matrix = none) ∧
    (∀ (order : List ℕ) (n_machines : ℕ) (processing_times ready_times : List ℚ)
      (setup_matrix : SetupMatrix),
      1 ≤ n_machines → order ≠ [] →
      ∃ mk sched,
        decode_schedule order n_machines processing_times ready_times setup_matrix =
          some (mk, sched)) := by
  constructor
  · intro n_machines processing_times ready_times setup_matrix
    rfl
  · intro order n_machines processing_times ready_times setup_matrix hm hne
    exact decode_schedule_total order n_machines processing_times ready_times
      setup_matrix hm hne

theorem c3_amended_witness :
    decode_schedule [] 1 [] [] [] = none ∧
    ∃ mk sched, decode_schedule [0] 1 [5] [0] [[none]] = some (mk, sched) :=
  ⟨c3_amended.1 1 [] [] [], c3_amended.2 [0] 1 [5] [0] [[none]] (by decide) (by decide)⟩

/-- C4, counterexample: `calcular_ddlb` does not special-case an instance
whose only job has no defined outgoing setup (`n_jobs = 1`): Python's
`min` over the empty generator raises `ValueError` (modelled as `none`)
instead of returning a fallback value such as 0. -/
theorem c4_counterexample : calcular_ddlb 1 1 [5] [[none]] [0] = none := rfl

/-- C4, amended: for `n_jobs = 0` the bound happens to be 0 because every
loop is vacuous (no explicit special-casing), but for every instance with
a job having no defined outgoing setup — e.g. every `n_jobs = 1` instance,
where only the undefined diagonal exists — the `min` over an empty
selection raises rather than returning a fallback. -/
theorem c4_amended :
    (∀ (n_machines : ℕ) (setup_matrix : SetupMatrix) (ready_times : List ℚ),
      1 ≤ n_machines →
      calcular_ddlb 0 n_machines [] setup_matrix ready_times = some 0) ∧
    (∀ (n_machines : ℕ) (processing_times : List ℚ) (setup_matrix : SetupMatrix)
      (ready_times : List ℚ),
      calcular_ddlb 1 n_machines processing_times setup_matrix ready_times = none) :=
  ⟨fun n_machines setup_matrix ready_times hm =>
    calcular_ddlb_zero_jobs n_machines setup_matrix ready_times hm,
   fun n_machines processing_times setup_matrix ready_times =>
    calcular_ddlb_one_job n_machines processing_times setup_matrix ready_times⟩

theorem c4_amended_witness :
    (1 : ℕ) ≤ 1 ∧ calcular_ddlb 0 1 [] [] [] = some 0 ∧
    calcular_ddlb 1 1 [5] [[none]] [0] = none :=
  ⟨by decide, c4_amended.1 1 [] [] (by decide), c4_amended.2 1 [5] [[none]] [0]⟩

/-- C5: permutation invariant.  `order_crossover` (including its internal
cut sampling) on two parent permutations of `0..n-1` of length ≥ 2 always
yields a child that is again a permutation of `0..n-1` — every free slot
is filled, no gene duplicated or lost by the wrap-around fill — and
`mutate_swap` maps a permutation to a permutation for every sequence of
random draws. -/
theorem c5_permutation_invariant :
    (∀ (n : ℕ) (parent1 parent2 : List ℕ) (d : Draw),
      parent1.Perm (List.range n) → parent2.Perm (List.range n) → 2 ≤ n →
      ∃ child, ox_full parent1 parent2 d = some child ∧
        child.Perm (List.range n)) ∧
    (∀ (n : ℕ) (chromosome : List ℕ) (mutation_rate : ℚ) (R : ℕ → Draw) (c : ℕ),
      chromosome.Perm (List.range n) →
      (mutate_swap chromosome mutation_rate R c).1.Perm (List.range n)) :=
  ⟨fun n parent1 parent2 d h1 h2 hn => ox_full_perm n parent1 parent2 d h1 h2 hn,
   fun n chromosome mutation_rate R c hch =>
    (mutate_swap_perm chromosome mutation_rate R c).trans hch⟩

theorem c5_witness :
    ([0, 1] : List ℕ).Perm (List.range 2) ∧
    (∃ child, ox_full [0, 1] [1, 0] ⟨0, 0, (0, 0), [], []⟩ = some child ∧
      child.Perm (List.range 2)) ∧
    (mutate_swap [1, 0] 1 (fun _ => ⟨0, 1, (0, 0), [], []⟩) 0).1.Perm (List.range 2) :=
  ⟨by decide,
   c5_permutation_invariant.1 2 [0, 1] [1, 0] ⟨0, 0, (0, 0), [], []⟩
     (by decide) (by decide) (by decide),
   c5_permutation_invariant.2 2 [1, 0] 1 (fun _ => ⟨0, 1, (0, 0), [], []⟩) 0 (by decide)⟩

/-- C6: monotone improvement.  Whatever the instance, configuration and
random draws, the History returned by a successful `genetic_algorithm` run
is non-increasing from generation 0 onward, because the elite individual
is copied verbatim into each new population before breeding. -/
theorem c6_monotone_history (n_jobs n_machines : ℕ)
    (processing_times ready_times : List ℚ) (setup_matrix : SetupMatrix)
    (pop_size generations : ℕ) (crossover_rate mutation_rate : ℚ)
    (tournament_k : ℕ) (R : ℕ → Draw) (res : GAResult)
    (h : genetic_algorithm n_jobs n_machines processing_times ready_times setup_matrix
      pop_size generations crossover_rate mutation_rate tournament_k R = some res) :
    List.Chain' (fun x y => y ≤ x) res.history :=
  (genetic_algorithm_history n_jobs n_machines processing_times ready_times setup_matrix
    pop_size generations crossover_rate mutation_rate tournament_k R res h).1

theorem c6_monotone_history_witness :
    genetic_algorithm 2 1 [1, 1] [0, 0] [[none, some 10], [some 0, none]] 2 3 0 1 1
      (fun _ => ⟨1/2, 1, (0, 0), [0], [0, 1]⟩) =
      some ⟨⟨[1, 0], 2⟩, [12, 2, 2, 2]⟩ ∧
    List.Chain' (fun x y : ℚ => y ≤ x)
      (GAResult.mk ⟨[1, 0], 2⟩ [12, 2, 2, 2]).history :=
  ⟨by with_unfolding_all decide,
   c6_monotone_history 2 1 [1, 1] [0, 0] [[none, some 10], [some 0, none]] 2 3 0 1 1
     (fun _ => ⟨1/2, 1, (0, 0), [0], [0, 1]⟩) ⟨⟨[1, 0], 2⟩, [12, 2, 2, 2]⟩
     (by with_unfolding_all decide)⟩

/-- C7: schedule validity.  In every schedule the decoder returns for a
well-formed instance and a valid permutation, on each machine consecutive
jobs are separated by at least the setup time (undefined entries read as
0), every start respects the job's ready time, and every end equals start
plus processing time. -/
theorem c7_schedule_validity (n_jobs n_machines : ℕ)
    (processing_times ready_times : List ℚ) (setup_matrix : SetupMatrix)
    (order : List ℕ) (mk : ℚ) (sched : List (List (ℕ × ℚ × ℚ)))
    (hm : 1 ≤ n_machines)
    (hp : processing_times.length = n_jobs) (hr : ready_times.length = n_jobs)
    (hpnn : ∀ x ∈ processing_times, 0 ≤ x) (hrnn : ∀ x ∈ ready_times, 0 ≤ x)
    (hsnn : ∀ row ∈ setup_matrix, ∀ cell ∈ row, 0 ≤ cell.getD 0)
    (hperm : order.Perm (List.range n_jobs))
    (h : decode_schedule order n_machines processing_times ready_times setup_matrix =
      some (mk, sched)) :
    ∀ row ∈ sched,
      List.Chain' (fun t1 t2 => t1.2.2 + setup0 setup_matrix t1.1 t2.1 ≤ t2.2.1) row ∧
      ∀ t ∈ row, ready_times.getD t.1 0 ≤ t.2.1 ∧
        t.2.2 = t.2.1 + processing_times.getD t.1 0 :=
  fun row hrow =>
    decode_schedule_rows order n_machines processing_times ready_times setup_matrix
      mk sched hm h row hrow

theorem c7_schedule_validity_witness :
    decode_schedule [0, 1] 2 [1, 1] [0, 0] [[none, some 100], [some 100, none]] =
      some (1, [[(0, 0, 1)], [(1, 0, 1)]]) ∧
    (List.Chain' (fun t1 t2 : ℕ × ℚ × ℚ =>
        t1.2.2 + setup0 [[none, some 100], [some 100, none]] t1.1 t2.1 ≤ t2.2.1)
      [(0, 0, 1)] ∧
     ∀ t ∈ [((0 : ℕ), (0 : ℚ), (1 : ℚ))], ([0, 0] : List ℚ).getD t.1 0 ≤ t.2.1 ∧
       t.2.2 = t.2.1 + ([1, 1] : List ℚ).getD t.1 0) :=
  ⟨by with_unfolding_all decide,
   c7_schedule_validity 2 2 [1, 1] [0, 0] [[none, some 100], [some 100, none]]
     [0, 1] 1 [[(0, 0, 1)], [(1, 0, 1)]]
     (by decide) (by decide) (by decide) (by decide) (by decide) (by decide) (by decide)
     (by with_unfolding_all decide) [(0, 0, 1)] (by decide)⟩

/-- C8: machine selection.  For any decoder state and job, with at least
one machine, the scan commits the job to a machine achieving the minimal
candidate finish time, and among machines tied at that minimum the lowest
index wins (any lower index has a strictly larger candidate), because the
scan runs in index order and only a strictly smaller candidate replaces
the incumbent; `place_job` then commits exactly that machine. -/
theorem c8_machine_selection (n_machines : ℕ)
    (processing_times ready_times : List ℚ) (setup_matrix : SetupMatrix)
    (st : DecState) (job : ℕ) (hm : 1 ≤ n_machines) :
    ∃ m, m < n_machines ∧
      select_machine st.machine_time st.last_job setup_matrix ready_times
          processing_times n_machines job =
        (some m,
         some (cand_fin st.machine_time st.last_job setup_matrix ready_times
           processing_times job m),
         cand_start st.machine_time st.last_job setup_matrix ready_times job m) ∧
      (∀ m2, m2 < n_machines →
        cand_fin st.machine_time st.last_job setup_matrix ready_times
            processing_times job m ≤
          cand_fin st.machine_time st.last_job setup_matrix ready_times
            processing_times job m2) ∧
      (∀ m2, m2 < m →
        cand_fin st.machine_time st.last_job setup_matrix ready_times
            processing_times job m <
          cand_fin st.machine_time st.last_job setup_matrix ready_times
            processing_times job m2) ∧
      place_job n_machines processing_times ready_times setup_matrix st job = some
        ⟨st.machine_time.set m (cand_fin st.machine_time st.last_job setup_matrix
            ready_times processing_times job m),
         st.last_job.set m (some job),
         st.completion_times.set job (cand_fin st.machine_time st.last_job setup_matrix
            ready_times processing_times job m),
         st.schedule.set m ((st.schedule.getD m []) ++
           [(job, cand_start st.machine_time st.last_job setup_matrix ready_times job m,
             cand_fin st.machine_time st.last_job setup_matrix ready_times
               processing_times job m)])⟩ := by
  obtain ⟨m, hm2, heq, hmin, hstrict⟩ :=
    select_machine_spec st.machine_time st.last_job setup_matrix ready_times
      processing_times job n_machines hm
  exact ⟨m, hm2, heq, hmin, hstrict, by rw [place_job, heq]⟩

theorem c8_machine_selection_witness :
    (1 : ℕ) ≤ 2 ∧
    ∃ m, m < 2 ∧
      select_machine (decode_init 2 [0, 1]).machine_time
          (decode_init 2 [0, 1]).last_job [[none, some 100], [some 100, none]]
          [0, 0] [1, 1] 2 0 =
        (some m,
         some (cand_fin (decode_init 2 [0, 1]).machine_time
           (decode_init 2 [0, 1]).last_job [[none, some 100], [some 100, none]]
           [0, 0] [1, 1] 0 m),
         cand_start (decode_init 2 [0, 1]).machine_time
           (decode_init 2 [0, 1]).last_job [[none, some 100], [some 100, none]]
           [0, 0] 0 m) ∧
      (∀ m2, m2 < 2 →
        cand_fin (decode_init 2 [0, 1]).machine_time (decode_init 2 [0, 1]).last_job
            [[none, some 100], [some 100, none]] [0, 0] [1, 1] 0 m ≤
          cand_fin (decode_init 2 [0, 1]).machine_time (decode_init 2 [0, 1]).last_job
            [[none, some 100], [some 100, none]] [0, 0] [1, 1] 0 m2) ∧
      (∀ m2, m2 < m →
        cand_fin (decode_init 2 [0, 1]).machine_time (decode_init 2 [0, 1]).last_job
            [[none, some 100], [some 100, none]] [0, 0] [1, 1] 0 m <
          cand_fin (decode_init 2 [0, 1]).machine_time (decode_init 2 [0, 1]).last_job
            [[none, some 100], [some 100, none]] [0, 0] [1, 1] 0 m2) ∧
      place_job 2 [1, 1] [0, 0] [[none, some 100], [some 100, none]]
          (decode_init 2 [0, 1]) 0 = some
        ⟨(decode_init 2 [0, 1]).machine_time.set m
            (cand_fin (decode_init 2 [0, 1]).machine_time
              (decode_init 2 [0, 1]).last_job [[none, some 100], [some 100, none]]
              [0, 0] [1, 1] 0 m),
         (decode_init 2 [0, 1]).last_job.set m (some 0),
         (decode_init 2 [0, 1]).completion_times.set 0
            (cand_fin (decode_init 2 [0, 1]).machine_time
              (decode_init 2 [0, 1]).last_job [[none, some 100], [some 100, none]]
              [0, 0] [1, 1] 0 m),
         (decode_init 2 [0, 1]).schedule.set m
            (((decode_init 2 [0, 1]).schedule.getD m []) ++
             [(0, cand_start (decode_init 2 [0, 1]).machine_time
                 (decode_init 2 [0, 1]).last_job [[none, some 100], [some 100, none]]
                 [0, 0] 0 m,
               cand_fin (decode_init 2 [0, 1]).machine_time
                 (decode_init 2 [0, 1]).last_job [[none, some 100], [some 100, none]]
                 [0, 0] [1, 1] 0 m)])⟩ :=
  ⟨by decide,
   c8_machine_selection 2 [1, 1] [0, 0] [[none, some 100], [some 100, none]]
     (decode_init 2 [0, 1]) 0 (by decide)⟩

/-- C9, counterexample: `genetic_algorithm` performs no configuration
validation.  With the invalid configuration `generations = 0` (non-positive)
it simply runs zero generations and returns a result instead of rejecting
with a configuration error before the search loop. -/
theorem c9_counterexample :
    genetic_algorithm 1 1 [5] [0] [[none]] 1 0 0 0 1
      (fun _ => ⟨0, 0, (0, 0), [0], [0]⟩) = some ⟨⟨[0], 5⟩, [5]⟩ := by
  with_unfolding_all decide

/-- C9, amended: there is no configuration validation anywhere:
non-positive `generations` runs zero generations and returns normally;
`pop_size = 0` fails at `min` of the empty initial population (an ordinary
`ValueError`, not a distinct configuration error, though it does occur
before the loop); `tournament_k > pop_size` fails inside the breeding loop
at the first `random.sample` call, i.e. mid-loop rather than up front. -/
theorem c9_amended :
    (genetic_algorithm 1 1 [5] [0] [[none]] 1 0 0 0 1
      (fun _ => ⟨0, 0, (0, 0), [0], [0]⟩) = some ⟨⟨[0], 5⟩, [5]⟩) ∧
    (∀ (n_jobs n_machines : ℕ) (processing_times ready_times : List ℚ)
      (setup_matrix : SetupMatrix) (generations : ℕ)
      (crossover_rate mutation_rate : ℚ) (tournament_k : ℕ) (R : ℕ → Draw),
      genetic_algorithm n_jobs n_machines processing_times ready_times setup_matrix
        0 generations crossover_rate mutation_rate tournament_k R = none) ∧
    (genetic_algorithm 1 1 [5] [0] [[none]] 2 1 0 0 3
      (fun _ => ⟨0, 0, (0, 0), [0], [0]⟩) = none) := by
  refine ⟨by with_unfolding_all decide, ?_, by with_unfolding_all decide⟩
  intro n_jobs n_machines processing_times ready_times setup_matrix generations
    crossover_rate mutation_rate tournament_k R
  rfl

/-- C10: `order_crossover` is only defined for orderings of length ≥ 2 —
its cut sampling `random.sample(range(size), 2)` fails for `size < 2` — so
`genetic_algorithm` with a positive crossover rate fails on a 1-job
instance as soon as the crossover branch is taken. -/
theorem c10_crossover_min_size :
    (∀ (parent1 parent2 : List ℕ) (d : Draw), parent1.length < 2 →
      ox_full parent1 parent2 d = none) ∧
    (genetic_algorithm 1 1 [5] [0] [[none]] 2 1 1 0 1
      (fun _ => ⟨0, 0, (0, 0), [0], [0]⟩) = none) := by
  constructor
  · intro parent1 parent2 d hlen
    rw [ox_full, ox_pick_cuts, if_pos hlen]
  · with_unfolding_all decide

theorem c10_crossover_min_size_witness :
    ([0] : List ℕ).length < 2 ∧
    ox_full [0] [0] ⟨0, 0, (0, 0), [], []⟩ = none ∧
    genetic_algorithm 1 1 [5] [0] [[none]] 2 1 1 0 1
      (fun _ => ⟨0, 0, (0, 0), [0], [0]⟩) = none :=
  ⟨by decide, c10_crossover_min_size.1 [0] [0] ⟨0, 0, (0, 0), [], []⟩ (by decide),
   c10_crossover_min_size.2⟩
